import Mathlib

/-!
Verification of the `pie` package manager (src/main.rs) against its
natural-language specification.

The Rust source is embedded shallowly:
* `HashMap`s become association lists (`lookupA`, `insertA`, `removeA`,
  `containsA`); only lookup/insert/remove semantics are relied upon.
* The filesystem under the install root becomes a list of relative paths.
* Network fetch, SHA-256 hashing, archive unpacking and device queries are
  collaborator functions carried in an `Env`.
* Standard input is a queue of lines; reading past its end yields `""`,
  matching `read_line` at EOF.
* The recursive resolver `resolve_recursive` is embedded with explicit fuel
  (`repo.length + 1`); we prove the fuel never runs out, so the embedding is
  total exactly where the Rust recursion terminates.
-/

namespace Pie

/-- One downloadable artifact of a package for a specific architecture
(struct `Architecture` in main.rs). -/
structure Architecture where
  url : String
  sha256 : String
  size : Nat
  uncompressed_size : Nat
  contents : List String
deriving DecidableEq

/-- A catalog package (struct `Package` in main.rs). -/
structure Package where
  version : String
  min_api : Option String
  dependencies : List String
  conflicts : List String
  architectures : List (String × Architecture)
deriving DecidableEq

/-- A ledger entry (struct `InstalledPackage` in main.rs). -/
structure InstalledPackage where
  name : String
  version : String
  contents : List String
deriving DecidableEq

/-- The catalog: `Repo.packages`, a map from name to package. -/
abbrev Repo := List (String × Package)

/-- The installed ledger: `InstalledPackages.packages`. -/
abbrev Ledger := List (String × InstalledPackage)

/-- Association-list lookup, the embedding of `HashMap::get`. -/
def lookupA {α : Type} : List (String × α) → String → Option α
  | [], _ => none
  | (k, v) :: rest, key => if key = k then some v else lookupA rest key

/-- Embedding of `HashMap::contains_key`. -/
def containsA {α : Type} (l : List (String × α)) (key : String) : Bool :=
  (lookupA l key).isSome

/-- Embedding of `HashMap::remove` (drops the key). -/
def removeA {α : Type} (l : List (String × α)) (key : String) : List (String × α) :=
  l.filter (fun pr => pr.1 ≠ key)

/-- Embedding of `HashMap::insert` (replaces any previous binding). -/
def insertA {α : Type} (l : List (String × α)) (key : String) (v : α) : List (String × α) :=
  (key, v) :: removeA l key

/-- Boolean membership on lists of strings (embedding of `Vec::contains` /
`HashSet::contains`). -/
def memB : List String → String → Bool
  | [], _ => false
  | y :: rest, x => if x = y then true else memB rest x

theorem memB_iff {l : List String} {x : String} : memB l x = true ↔ x ∈ l := by
  induction l with
  | nil => simp [memB]
  | cons y rest ih =>
    by_cases h : x = y <;> simp [memB, h, ih]

theorem memB_eq_false_iff {l : List String} {x : String} :
    memB l x = false ↔ ¬ x ∈ l := by
  rw [← memB_iff]
  cases h : memB l x <;> simp [h]

/-- Errors surfaced by the embedded operations. In the source every variant is
a distinct dynamically formatted error string behind a boxed error trait
object; here each format string becomes one constructor carrying its data:
notFound and depNotFound for the two package-not-found messages,
archUnsupported and archUnavailable for the architecture failures,
invalidMinApi and incompatibleApi for the compatibility check,
checksumMismatch for artifact verification, cancelledConflicts for a declined
conflict prompt, contentNotInstalled / notFoundOrNotInstalled / notInstalled
for the uninstall failures, and outOfFuel for fuel exhaustion of the embedded
resolver, proved unreachable below. -/
inductive PError where
  | notFound (name : String)
  | depNotFound (name : String)
  | archUnsupported
  | archUnavailable (name : String)
  | invalidMinApi (s : String)
  | incompatibleApi (min dev : Nat)
  | checksumMismatch (name : String)
  | cancelledConflicts
  | contentNotInstalled (name : String)
  | notFoundOrNotInstalled (name : String)
  | notInstalled (name : String)
  | outOfFuel
deriving DecidableEq

/-- Collaborators and device state (network, hashing, unpacking, `getprop`). -/
structure Env where
  arch : String
  apiLevel : Nat
  fetchBytes : String → List Nat
  hashHex : List Nat → String
  unpack : List Nat → List String

/-- The architecture whitelist of `get_arch`. -/
def supportedArchs : List String :=
  ["arm64-v8a", "armeabi-v7a", "x86", "x86_64", "riscv64"]

/-- Embedding of `get_arch`: the reported ABI if whitelisted, else failure. -/
def get_arch (e : Env) : Option String :=
  if memB supportedArchs e.arch then some e.arch else none

/-- State of the dependency resolver: the accumulating `to_install` order and
the `visited` set of `resolve_dependencies`. -/
structure RState where
  toInstall : List String
  visited : List String
deriving DecidableEq

/-- The dependency loop body of `resolve_recursive`: for each declared
dependency not installed and not already scheduled, run `step` (the recursive
call) and then append the dependency. -/
def depsFold (step : String → RState → Except PError RState) (installed : Ledger) :
    List String → RState → Except PError RState
  | [], st => .ok st
  | d :: rest, st =>
    if containsA installed d || memB st.toInstall d then
      depsFold step installed rest st
    else
      match step d st with
      | .error e => .error e
      | .ok st2 => depsFold step installed rest { st2 with toInstall := st2.toInstall ++ [d] }

/-- Fuelled embedding of `resolve_recursive`, via `Nat.rec` on the fuel. -/
def resolveRec (repo : Repo) (installed : Ledger) (fuel : Nat) :
    String → RState → Except PError RState :=
  Nat.rec (motive := fun _ => String → RState → Except PError RState)
    (fun _ _ => .error .outOfFuel)
    (fun _ ih pkg st =>
      if memB st.visited pkg then .ok st
      else
        match lookupA repo pkg with
        | none => .error (.depNotFound pkg)
        | some p => depsFold ih installed p.dependencies { st with visited := pkg :: st.visited })
    fuel

theorem resolveRec_zero (repo : Repo) (installed : Ledger) (pkg : String) (st : RState) :
    resolveRec repo installed 0 pkg st = .error .outOfFuel := rfl

theorem resolveRec_succ (repo : Repo) (installed : Ledger) (f : Nat) (pkg : String) (st : RState) :
    resolveRec repo installed (f + 1) pkg st =
      (if memB st.visited pkg then .ok st
       else
         match lookupA repo pkg with
         | none => .error (.depNotFound pkg)
         | some p =>
             depsFold (resolveRec repo installed f) installed p.dependencies
               { st with visited := pkg :: st.visited }) := rfl

/-- Embedding of `resolve_dependencies`: run the recursion from an empty state
with fuel `repo.length + 1` (proved sufficient below) and return `to_install`. -/
def resolve_dependencies (repo : Repo) (target : String) (installed : Ledger) :
    Except PError (List String) :=
  (resolveRec repo installed (repo.length + 1) target ⟨[], []⟩).map (fun st => st.toInstall)

namespace Resolver

/-- The key set of the catalog. -/
def namesOf (repo : Repo) : List String := repo.map Prod.fst

/-- Number of catalog names not yet visited: the resolver's termination measure. -/
def freeCount (repo : Repo) (visited : List String) : Nat :=
  ((namesOf repo).filter (fun n => !(memB visited n))).length

theorem lookupA_mem_pair {α : Type} {l : List (String × α)} {k : String} {v : α}
    (h : lookupA l k = some v) : (k, v) ∈ l := by
  induction l with
  | nil => simp [lookupA] at h
  | cons pr rest ih =>
    obtain ⟨k', v'⟩ := pr
    by_cases hk : k = k'
    · simp [lookupA, hk] at h
      simp [hk, h]
    · simp [lookupA, hk] at h
      exact List.mem_cons_of_mem _ (ih h)

theorem lookupA_some_mem_names {repo : Repo} {k : String} {p : Package}
    (h : lookupA repo k = some p) : k ∈ namesOf repo := by
  have := lookupA_mem_pair h
  exact List.mem_map_of_mem Prod.fst this

theorem freeCount_le_of_subset {repo : Repo} {v w : List String} (h : v ⊆ w) :
    freeCount repo w ≤ freeCount repo v := by
  unfold freeCount
  refine List.Sublist.length_le (List.monotone_filter_right _ ?_)
  intro a ha
  simp only [Bool.not_eq_true'] at ha ⊢
  rw [memB_eq_false_iff] at ha ⊢
  exact fun hmem => ha (h hmem)

theorem freeCount_lt_of_insert {repo : Repo} {visited : List String} {pkg : String}
    (hmem : pkg ∈ namesOf repo) (hnv : memB visited pkg = false) :
    freeCount repo (pkg :: visited) < freeCount repo visited := by
  have hsub : ((namesOf repo).filter (fun n => !(memB (pkg :: visited) n))).Sublist
      ((namesOf repo).filter (fun n => !(memB visited n))) := by
    refine List.monotone_filter_right _ ?_
    intro a ha
    simp only [Bool.not_eq_true'] at ha ⊢
    rw [memB_eq_false_iff] at ha ⊢
    exact fun hmemv => ha (List.mem_cons_of_mem _ hmemv)
  have hin : pkg ∈ (namesOf repo).filter (fun n => !(memB visited n)) := by
    refine List.mem_filter.mpr ⟨hmem, ?_⟩
    simp [hnv]
  have hout : pkg ∉ (namesOf repo).filter (fun n => !(memB (pkg :: visited) n)) := by
    intro hc
    have := (List.mem_filter.mp hc).2
    simp only [Bool.not_eq_true'] at this
    rw [memB_eq_false_iff] at this
    exact this (List.mem_cons_self _ _)
  refine Nat.lt_of_le_of_ne (List.Sublist.length_le hsub) ?_
  intro heq
  rw [List.Sublist.eq_of_length hsub heq] at hout
  exact hout hin

theorem depsFold_visited_mono {step : String → RState → Except PError RState}
    {installed : Ledger}
    (hstep : ∀ d s s', step d s = .ok s' → s.visited ⊆ s'.visited) :
    ∀ (deps : List String) (st st' : RState),
      depsFold step installed deps st = .ok st' → st.visited ⊆ st'.visited := by
  intro deps
  induction deps with
  | nil =>
    intro st st' h
    simp [depsFold] at h
    cases h
    exact fun x hx => hx
  | cons d rest ih =>
    intro st st' h
    by_cases hskip : (containsA installed d || memB st.toInstall d) = true
    · rw [depsFold, if_pos hskip] at h
      exact ih st st' h
    · rw [depsFold, if_neg hskip] at h
      cases hs : step d st with
      | error e => rw [hs] at h; exact absurd h (by simp)
      | ok st2 =>
        rw [hs] at h
        have h1 := hstep d st st2 hs
        have h2 := ih _ st' h
        exact fun x hx => h2 (h1 hx)

theorem resolveRec_visited_mono {repo : Repo} {installed : Ledger} :
    ∀ (f : Nat) (pkg : String) (st st' : RState),
      resolveRec repo installed f pkg st = .ok st' → st.visited ⊆ st'.visited := by
  intro f
  induction f with
  | zero => intro pkg st st' h; rw [resolveRec_zero] at h; exact absurd h (by simp)
  | succ f ih =>
    intro pkg st st' h
    rw [resolveRec_succ] at h
    by_cases hv : memB st.visited pkg = true
    · rw [if_pos hv] at h
      cases h; exact fun x hx => hx
    · rw [if_neg hv] at h
      cases hl : lookupA repo pkg with
      | none => rw [hl] at h; exact absurd h (by simp)
      | some p =>
        rw [hl] at h
        have := depsFold_visited_mono (fun d s s' => ih d s s') p.dependencies _ st' h
        exact fun x hx => this (List.mem_cons_of_mem _ hx)

theorem depsFold_ne_outOfFuel {repo : Repo} {installed : Ledger} {f : Nat}
    (ihn : ∀ (d : String) (s : RState), freeCount repo s.visited < f →
      resolveRec repo installed f d s ≠ .error .outOfFuel) :
    ∀ (deps : List String) (st : RState), freeCount repo st.visited < f →
      depsFold (resolveRec repo installed f) installed deps st ≠ .error .outOfFuel := by
  intro deps
  induction deps with
  | nil => intro st _ h; simp [depsFold] at h
  | cons d rest ih =>
    intro st hlt h
    by_cases hskip : (containsA installed d || memB st.toInstall d) = true
    · rw [depsFold, if_pos hskip] at h
      exact ih st hlt h
    · rw [depsFold, if_neg hskip] at h
      cases hs : resolveRec repo installed f d st with
      | error e =>
        rw [hs] at h
        replace h : (Except.error e : Except PError RState) = Except.error PError.outOfFuel := h
        cases h
        exact ihn d st hlt hs
      | ok st2 =>
        rw [hs] at h
        replace h : depsFold (resolveRec repo installed f) installed rest
            { st2 with toInstall := st2.toInstall ++ [d] } = Except.error PError.outOfFuel := h
        have hsub := resolveRec_visited_mono f d st st2 hs
        have hle : freeCount repo st2.visited ≤ freeCount repo st.visited :=
          freeCount_le_of_subset hsub
        exact ih { st2 with toInstall := st2.toInstall ++ [d] } (lt_of_le_of_lt hle hlt) h

theorem resolveRec_ne_outOfFuel {repo : Repo} {installed : Ledger} :
    ∀ (f : Nat) (pkg : String) (st : RState), freeCount repo st.visited < f →
      resolveRec repo installed f pkg st ≠ .error .outOfFuel := by
  intro f
  induction f with
  | zero => intro pkg st hlt; exact absurd hlt (by simp)
  | succ f ih =>
    intro pkg st hlt h
    rw [resolveRec_succ] at h
    by_cases hv : memB st.visited pkg = true
    · rw [if_pos hv] at h; exact absurd h (by simp)
    · rw [if_neg hv] at h
      cases hl : lookupA repo pkg with
      | none => rw [hl] at h; exact absurd h (by simp)
      | some p =>
        rw [hl] at h
        have hmem := lookupA_some_mem_names hl
        have hstep : freeCount repo (pkg :: st.visited) < freeCount repo st.visited :=
          freeCount_lt_of_insert hmem (by simpa using hv)
        have hfuel : freeCount repo (pkg :: st.visited) < f :=
          lt_of_lt_of_le hstep (Nat.lt_succ_iff.mp hlt)
        exact depsFold_ne_outOfFuel ih p.dependencies _ hfuel h

theorem freeCount_lt_fuel (repo : Repo) :
    freeCount repo ([] : List String) < repo.length + 1 := by
  have h1 : freeCount repo [] ≤ (namesOf repo).length := List.length_filter_le _ _
  have h2 : (namesOf repo).length = repo.length := List.length_map _ _
  omega

/-- Claim support: the embedded resolver never exhausts its fuel, for any
catalog, target and ledger. -/
theorem resolve_dependencies_ne_outOfFuel (repo : Repo) (target : String)
    (installed : Ledger) :
    resolve_dependencies repo target installed ≠ .error .outOfFuel := by
  unfold resolve_dependencies
  have hne := @resolveRec_ne_outOfFuel repo installed
    (repo.length + 1) target ⟨[], []⟩ (freeCount_lt_fuel repo)
  cases hr : resolveRec repo installed (repo.length + 1) target ⟨[], []⟩ with
  | error e =>
    intro hc
    replace hc : (Except.error e : Except PError (List String)) =
        Except.error PError.outOfFuel := hc
    cases hc
    exact hne hr
  | ok st =>
    intro hc
    replace hc : (Except.ok st.toInstall : Except PError (List String)) =
        Except.error PError.outOfFuel := hc
    exact Except.noConfusion hc

/-- A catalog is dependency-closed when every declared dependency of every
package is itself a catalog key. -/
def depsClosed (repo : Repo) : Prop :=
  ∀ pr ∈ repo, ∀ d ∈ pr.2.dependencies, containsA repo d = true

theorem depsFold_isOk {repo : Repo} {installed : Ledger} {f : Nat}
    (ihok : ∀ (d : String) (s : RState), freeCount repo s.visited < f →
      (containsA repo d = true ∨ memB s.visited d = true) →
      ∃ s', resolveRec repo installed f d s = .ok s') :
    ∀ (deps : List String) (st : RState), freeCount repo st.visited < f →
      (∀ d ∈ deps, containsA repo d = true) →
      ∃ st', depsFold (resolveRec repo installed f) installed deps st = .ok st' := by
  intro deps
  induction deps with
  | nil => intro st _ _; exact ⟨st, rfl⟩
  | cons d rest ih =>
    intro st hlt hdeps
    by_cases hskip : (containsA installed d || memB st.toInstall d) = true
    · rw [depsFold, if_pos hskip]
      exact ih st hlt (fun x hx => hdeps x (List.mem_cons_of_mem _ hx))
    · rw [depsFold, if_neg hskip]
      obtain ⟨st2, hs⟩ := ihok d st hlt (Or.inl (hdeps d (List.mem_cons_self _ _)))
      rw [hs]
      have hsub := resolveRec_visited_mono f d st st2 hs
      have hle : freeCount repo st2.visited ≤ freeCount repo st.visited :=
        freeCount_le_of_subset hsub
      exact ih _ (lt_of_le_of_lt hle hlt) (fun x hx => hdeps x (List.mem_cons_of_mem _ hx))

theorem resolveRec_isOk {repo : Repo} {installed : Ledger} (hclosed : depsClosed repo) :
    ∀ (f : Nat) (pkg : String) (st : RState), freeCount repo st.visited < f →
      (containsA repo pkg = true ∨ memB st.visited pkg = true) →
      ∃ st', resolveRec repo installed f pkg st = .ok st' := by
  intro f
  induction f with
  | zero => intro pkg st hlt; exact absurd hlt (by simp)
  | succ f ih =>
    intro pkg st hlt hin
    rw [resolveRec_succ]
    by_cases hv : memB st.visited pkg = true
    · rw [if_pos hv]; exact ⟨st, rfl⟩
    · rw [if_neg hv]
      have hcont : containsA repo pkg = true := by
        rcases hin with h | h
        · exact h
        · exact absurd h hv
      rw [containsA, Option.isSome_iff_exists] at hcont
      obtain ⟨p, hl⟩ := hcont
      rw [hl]
      have hmem := lookupA_some_mem_names hl
      have hstep : freeCount repo (pkg :: st.visited) < freeCount repo st.visited :=
        freeCount_lt_of_insert hmem (by simpa using hv)
      have hfuel : freeCount repo (pkg :: st.visited) < f :=
        lt_of_lt_of_le hstep (Nat.lt_succ_iff.mp hlt)
      have hdeps : ∀ x ∈ p.dependencies, containsA repo x = true :=
        fun x hx => hclosed (pkg, p) (lookupA_mem_pair hl) x hx
      exact depsFold_isOk ih p.dependencies _ hfuel hdeps

/-- Claim support: on a dependency-closed catalog the resolver succeeds for
every catalog target, whether or not the dependency graph has cycles. -/
theorem resolve_dependencies_isOk {repo : Repo} {target : String} {installed : Ledger}
    (hclosed : depsClosed repo) (htarget : containsA repo target = true) :
    ∃ l, resolve_dependencies repo target installed = .ok l := by
  obtain ⟨st', h⟩ := @resolveRec_isOk repo installed hclosed (repo.length + 1)
    target ⟨[], []⟩ (freeCount_lt_fuel repo) (Or.inl htarget)
  exact ⟨st'.toInstall, by rw [resolve_dependencies, h]; rfl⟩

/-- All dependency names declared anywhere in the catalog. -/
def allDepNames (repo : Repo) : List String :=
  (repo.map (fun pr => pr.2.dependencies)).flatten

theorem depsFold_scope {repo : Repo} {installed : Ledger} {f : Nat}
    (ih : ∀ (d : String) (s s' : RState), resolveRec repo installed f d s = .ok s' →
      ∀ x ∈ s'.toInstall, x ∈ s.toInstall ∨ x ∈ allDepNames repo) :
    ∀ (deps : List String), (∀ d ∈ deps, d ∈ allDepNames repo) →
      ∀ (st st' : RState), depsFold (resolveRec repo installed f) installed deps st = .ok st' →
      ∀ x ∈ st'.toInstall, x ∈ st.toInstall ∨ x ∈ allDepNames repo := by
  intro deps
  induction deps with
  | nil =>
    intro _ st st' h x hx
    simp [depsFold] at h
    cases h
    exact Or.inl hx
  | cons d rest ihr =>
    intro hdeps st st' h x hx
    by_cases hskip : (containsA installed d || memB st.toInstall d) = true
    · rw [depsFold, if_pos hskip] at h
      exact ihr (fun y hy => hdeps y (List.mem_cons_of_mem _ hy)) st st' h x hx
    · rw [depsFold, if_neg hskip] at h
      cases hs : resolveRec repo installed f d st with
      | error e => rw [hs] at h; exact absurd h (by simp)
      | ok st2 =>
        rw [hs] at h
        replace h : depsFold (resolveRec repo installed f) installed rest
            { st2 with toInstall := st2.toInstall ++ [d] } = Except.ok st' := h
        have hrest := ihr (fun y hy => hdeps y (List.mem_cons_of_mem _ hy)) _ st' h x hx
        rcases hrest with hmem | hall
        · simp only [List.mem_append, List.mem_singleton] at hmem
          rcases hmem with hmem2 | hxd
          · exact ih d st st2 hs x hmem2
          · exact Or.inr (hxd ▸ hdeps d (List.mem_cons_self _ _))
        · exact Or.inr hall

theorem resolveRec_scope {repo : Repo} {installed : Ledger} :
    ∀ (f : Nat) (pkg : String) (st st' : RState),
      resolveRec repo installed f pkg st = .ok st' →
      ∀ x ∈ st'.toInstall, x ∈ st.toInstall ∨ x ∈ allDepNames repo := by
  intro f
  induction f with
  | zero => intro pkg st st' h; rw [resolveRec_zero] at h; exact absurd h (by simp)
  | succ f ih =>
    intro pkg st st' h
    rw [resolveRec_succ] at h
    by_cases hv : memB st.visited pkg = true
    · rw [if_pos hv] at h
      cases h
      exact fun x hx => Or.inl hx
    · rw [if_neg hv] at h
      cases hl : lookupA repo pkg with
      | none => rw [hl] at h; exact absurd h (by simp)
      | some p =>
        rw [hl] at h
        replace h : depsFold (resolveRec repo installed f) installed p.dependencies
            { st with visited := pkg :: st.visited } = Except.ok st' := h
        have hdeps : ∀ d ∈ p.dependencies, d ∈ allDepNames repo := by
          intro d hd
          unfold allDepNames
          rw [List.mem_flatten]
          exact ⟨p.dependencies, List.mem_map_of_mem _ (lookupA_mem_pair hl), hd⟩
        exact depsFold_scope ih p.dependencies hdeps { st with visited := pkg :: st.visited } st' h

end Resolver

/-- String suffix test, the embedding of Rust `str::ends_with`. -/
def strEndsWith (s suf : String) : Bool :=
  suf.data.isSuffixOf s.data

/-- The per-path match test of `find_package_by_content`: the content path ends
with `/{query}`, or ends with `bin/{query}`, or equals the query. -/
def contentMatches (query content : String) : Bool :=
  strEndsWith content ("/" ++ query) || strEndsWith content ("bin/" ++ query)
    || content == query

/-- Embedding of the loop of `find_package_by_content` over the catalog map. -/
def findByContentGo (e : Env) (query : String) : List (String × Package) → Option String
  | [] => none
  | (n, p) :: rest =>
    match get_arch e with
    | none => none
    | some arch =>
      match lookupA p.architectures arch with
      | some art =>
        if art.contents.any (fun c => contentMatches query c) then some n
        else findByContentGo e query rest
      | none => findByContentGo e query rest

/-- Embedding of `find_package_by_content`. -/
def find_package_by_content (e : Env) (repo : Repo) (query : String) : Option String :=
  findByContentGo e query repo

/-- Embedding of Rust `str::trim`: strip leading and trailing whitespace. -/
def strTrim (s : String) : String :=
  ⟨(((s.data.dropWhile Char.isWhitespace).reverse).dropWhile Char.isWhitespace).reverse⟩

/-- ASCII lowercasing of one character. -/
def lowerChar (c : Char) : Char :=
  if 65 ≤ c.toNat ∧ c.toNat ≤ 90 then Char.ofNat (c.toNat + 32) else c

/-- Embedding of Rust `str::to_lowercase` (ASCII range). -/
def strToLower (s : String) : String :=
  ⟨s.data.map lowerChar⟩

/-- Decimal value of a digit string. -/
def digitsToNat : List Char → Nat → Nat
  | [], acc => acc
  | c :: rest, acc => digitsToNat rest (acc * 10 + (c.toNat - 48))

/-- Embedding of Rust `str::parse::<u32>`: optional `+` sign, then one or more
decimal digits, value bounded by `u32::MAX`. -/
def parseU32 (s : String) : Option Nat :=
  let l := match s.data with
    | '+' :: rest => rest
    | other => other
  if !l.isEmpty && l.all Char.isDigit then
    let n := digitsToNat l 0
    if n < 4294967296 then some n else none
  else none

/-- Embedding of `check_api_compatibility`: `none` means the check passed. -/
def check_api_compatibility (deviceApi : Nat) (p : Package) : Option PError :=
  match p.min_api with
  | none => none
  | some s =>
    if strTrim s = "" then none
    else
      match parseU32 s with
      | none => some (.invalidMinApi s)
      | some m => if deviceApi < m then some (.incompatibleApi m deviceApi) else none

/-- Embedding of `remove_package_files`: delete the owned files of `name`
recorded in the ledger from the install root. -/
def remove_package_files (installed : Ledger) (fs : List String) (name : String) :
    List String :=
  match lookupA installed name with
  | none => fs
  | some p => fs.filter (fun f => !(memB p.contents f))

/-- Trim, lowercase, and compare against `n` / `no`: the decline test used at
every confirmation prompt. -/
def isNoAnswer (line : String) : Bool :=
  let a := strToLower (strTrim line)
  a == "n" || a == "no"

/-- Pop one line from standard input; EOF reads as the empty string. -/
def readLine : List String → String × List String
  | [] => ("", [])
  | l :: rest => (l, rest)

/-- The removal loop of `handle_conflicts`: for each staged conflict, delete
its owned files, then drop its ledger entry. -/
def removeConflicts : List String → Ledger → List String → Ledger × List String
  | [], mem, fs => (mem, fs)
  | c :: rest, mem, fs =>
    removeConflicts rest (removeA mem c) (remove_package_files mem fs c)

/-- Embedding of `handle_conflicts`: stage installed conflicts, confirm unless
`no_confirm`, then remove files and ledger entries of each staged conflict.
Returns (error, ledger, filesystem, remaining stdin). -/
def handle_conflicts (pkg : Package) (mem : Ledger) (fs : List String)
    (stdin : List String) (no_confirm : Bool) :
    Option PError × Ledger × List String × List String :=
  let staged := pkg.conflicts.filter (fun c => containsA mem c)
  if staged.isEmpty then (none, mem, fs, stdin)
  else if no_confirm then
    let (m2, f2) := removeConflicts staged mem fs
    (none, m2, f2, stdin)
  else
    let (line, stdin2) := readLine stdin
    if isNoAnswer line then (some .cancelledConflicts, mem, fs, stdin2)
    else
      let (m2, f2) := removeConflicts staged mem fs
      (none, m2, f2, stdin2)

/-- Set-union on path lists: the effect of `archive.unpack` into the install
root, overwriting pre-existing paths. -/
def fsUnion (fs new : List String) : List String :=
  fs ++ new.filter (fun p => !(memB fs p))

/-- Mutable state visible to `install_single_package`: the in-memory ledger,
the install-root filesystem, and the trace of artifact URLs fetched. -/
structure MState where
  mem : Ledger
  fs : List String
  fetched : List String
deriving DecidableEq

/-- Embedding of `install_single_package`: look up package and artifact, fetch
bytes, verify the sha256 checksum, unpack into the install root, register the
ledger entry. An error leaves the state as it was at the failure point. -/
def install_single_package (e : Env) (repo : Repo) (name : String) (s : MState) :
    Option PError × MState :=
  match lookupA repo name with
  | none => (some (.notFound name), s)
  | some p =>
    match get_arch e with
    | none => (some .archUnsupported, s)
    | some arch =>
      match lookupA p.architectures arch with
      | none => (some (.archUnavailable name), s)
      | some art =>
        let content := e.fetchBytes art.url
        let s1 : MState := { s with fetched := s.fetched ++ [art.url] }
        if e.hashHex content ≠ art.sha256 then (some (.checksumMismatch name), s1)
        else
          let s2 : MState := { s1 with fs := fsUnion s1.fs (e.unpack content) }
          (none, { s2 with
            mem := insertA s2.mem name ⟨name, p.version, art.contents⟩ })

/-- The install loop of `install_package`: per-package installs in order, the
first failure halting the rest of the batch. -/
def installBatch (e : Env) (repo : Repo) : List String → MState → Option PError × MState
  | [], s => (none, s)
  | n :: rest, s =>
    match install_single_package e repo n s with
    | (some err, s') => (some err, s')
    | (none, s') => installBatch e repo rest s'

/-- Durable state of one command invocation: stdin queue, install-root
filesystem, the durable ledger document, the trace of artifact fetches, and
the trace of durable ledger writes (`save_installed_packages` calls). -/
structure TxSt where
  stdin : List String
  fs : List String
  durable : Ledger
  fetched : List String
  saves : List Ledger
deriving DecidableEq

/-- The installing-and-persisting tail of `install_package`: install every
dependency then the target; on success write the ledger durably exactly once. -/
def installRun (e : Env) (repo : Repo) (target : String) (deps : List String)
    (mem2 : Ledger) (fs2 : List String) (stdin3 : List String) (st : TxSt) :
    Option PError × TxSt :=
  match installBatch e repo (deps ++ [target]) ⟨mem2, fs2, st.fetched⟩ with
  | (some err, ms) =>
    (some err, { st with fs := ms.fs, fetched := ms.fetched, stdin := stdin3 })
  | (none, ms) =>
    (none, { stdin := stdin3, fs := ms.fs, durable := ms.mem,
             fetched := ms.fetched, saves := st.saves ++ [ms.mem] })

/-- Embedding of `install_package` after target resolution: already-installed
short-circuit, API check, conflict handling, dependency resolution, the
fallible device-architecture query opening the size-accounting phase, the main
confirmation prompt, the install loop, and the single durable ledger write. -/
def installResolved (e : Env) (repo : Repo) (target : String) (no_confirm : Bool)
    (st : TxSt) : Option PError × TxSt :=
  match lookupA repo target with
  | none => (some (.notFound target), st)
  | some package =>
    if containsA st.durable target then (none, st)
    else
      match check_api_compatibility e.apiLevel package with
      | some err => (some err, st)
      | none =>
        match handle_conflicts package st.durable st.fs st.stdin no_confirm with
        | (some err, _, _, stdin2) => (some err, { st with stdin := stdin2 })
        | (none, mem2, fs2, stdin2) =>
          match resolve_dependencies repo target mem2 with
          | .error err => (some err, { st with fs := fs2, stdin := stdin2 })
          | .ok deps =>
            match get_arch e with
            | none => (some .archUnsupported, { st with fs := fs2, stdin := stdin2 })
            | some _ =>
              if no_confirm then installRun e repo target deps mem2 fs2 stdin2 st
              else
                let (line, stdin3) := readLine stdin2
                if isNoAnswer line then (none, { st with fs := fs2, stdin := stdin3 })
                else installRun e repo target deps mem2 fs2 stdin3 st

/-- Embedding of `install_package`: resolve the target (direct catalog key, or
content lookup with a confirmation prompt), then run the transaction. -/
def install_package (e : Env) (repo : Repo) (name : String) (no_confirm : Bool)
    (st : TxSt) : Option PError × TxSt :=
  if (lookupA repo name).isSome then installResolved e repo name no_confirm st
  else
    match find_package_by_content e repo name with
    | some pkg =>
      if no_confirm then installResolved e repo pkg no_confirm st
      else
        let (line, stdin2) := readLine st.stdin
        if isNoAnswer line then (none, { st with stdin := stdin2 })
        else installResolved e repo pkg no_confirm { st with stdin := stdin2 }
    | none => (some (.notFound name), st)

/-- The file-removal and persist tail of `uninstall_package`, once the target
resolved to an installed ledger key. -/
def uninstallResolved (target : String) (st : TxSt) : Option PError × TxSt :=
  match lookupA st.durable target with
  | none => (some (.notInstalled target), st)
  | some p =>
    let fs2 := st.fs.filter (fun f => !(memB p.contents f))
    let mem2 := removeA st.durable target
    (none, { st with fs := fs2, durable := mem2, saves := st.saves ++ [mem2] })

/-- Embedding of `uninstall_package`: direct ledger key, else content lookup
restricted to installed packages (with a confirmation prompt), then removal. -/
def uninstall_package (e : Env) (repo : Repo) (name : String) (st : TxSt) :
    Option PError × TxSt :=
  if containsA st.durable name then uninstallResolved name st
  else
    match find_package_by_content e repo name with
    | some pkg =>
      if containsA st.durable pkg then
        let (line, stdin2) := readLine st.stdin
        if isNoAnswer line then (none, { st with stdin := stdin2 })
        else uninstallResolved pkg { st with stdin := stdin2 }
      else (some (.contentNotInstalled name), st)
    | none => (some (.notFoundOrNotInstalled name), st)

end Pie


namespace Pie

/-! ### Concrete fixtures used by witnesses and counterexamples -/

/-- A catalog package carrying only dependency declarations. -/
def pkgOf (deps : List String) : Package :=
  { version := "1", min_api := none, dependencies := deps, conflicts := [],
    architectures := [] }

/-- Catalog with a dependency cycle through the target `a`. -/
def cycAB : Repo := [("a", pkgOf ["b"]), ("b", pkgOf ["a"])]

/-- Catalog with a dependency cycle `b → c → b` below the target `a`. -/
def cycBC : Repo := [("a", pkgOf ["b"]), ("b", pkgOf ["c"]), ("c", pkgOf ["b"])]

/-- The diamond catalog over concrete names. -/
def diamondRepo : Repo :=
  [("a", pkgOf ["b", "c"]), ("b", pkgOf ["d"]), ("c", pkgOf ["d"]), ("d", pkgOf [])]

end Pie

namespace Pie

open Resolver

/-! ### Claim C7 -/

/-- C7: for every catalog — dependency cycles reachable from the target
included — `resolve_dependencies` terminates (the fuelled embedding never
exhausts its fuel), and whenever the target and every declared dependency name
exist in the catalog it returns a result rather than an error: a visited name
is skipped, so cycles are silently broken. -/
theorem claim_C7_cycle_termination :
    (∀ (repo : Repo) (target : String) (installed : Ledger),
        resolve_dependencies repo target installed ≠ .error .outOfFuel) ∧
    (∀ (repo : Repo) (target : String) (installed : Ledger),
        depsClosed repo → containsA repo target = true →
        ∃ l, resolve_dependencies repo target installed = .ok l) :=
  ⟨fun repo target installed => resolve_dependencies_ne_outOfFuel repo target installed,
   fun _ _ _ hclosed htarget => resolve_dependencies_isOk hclosed htarget⟩

/-- Witness for C7 on the concrete cyclic catalog `a ↔ b`: resolution
terminates successfully. -/
theorem claim_C7_cycle_termination_witness :
    ∃ l, resolve_dependencies cycAB "a" [] = .ok l :=
  claim_C7_cycle_termination.2 cycAB "a" [] (by unfold depsClosed; decide) (by decide)

/-! ### Claim C10 -/

/-- Counterexample to C10: with the cyclic catalog `a ↔ b`, resolving target
`a` returns a list that does contain the target name `a` itself, so the
install loop would install the target twice. -/
theorem claim_C10_counterexample :
    resolve_dependencies cycAB "a" [] = .ok ["a", "b"] ∧ "a" ∈ ["a", "b"] :=
  ⟨by rfl, by decide⟩

/-- C10 (amended): every name in the resolved list occurs in some catalog
package's dependency declarations; hence the target never appears unless some
catalog package (possibly on a cycle through the target) declares the target
itself as a dependency. -/
theorem claim_C10_amended (repo : Repo) (target : String) (installed : Ledger)
    (l : List String) (h : resolve_dependencies repo target installed = .ok l) :
    (∀ x ∈ l, x ∈ allDepNames repo) ∧
    (target ∉ allDepNames repo → target ∉ l) := by
  have hall : ∀ x ∈ l, x ∈ allDepNames repo := by
    unfold resolve_dependencies at h
    cases hr : resolveRec repo installed (repo.length + 1) target ⟨[], []⟩ with
    | error e =>
      rw [hr] at h
      replace h : (Except.error e : Except PError (List String)) = .ok l := h
      exact Except.noConfusion h
    | ok st =>
      rw [hr] at h
      replace h : (Except.ok st.toInstall : Except PError (List String)) = .ok l := h
      cases h
      intro x hx
      rcases resolveRec_scope (repo.length + 1) target ⟨[], []⟩ st hr x hx with hin | hin
      · simp at hin
      · exact hin
  exact ⟨hall, fun hnot hmem => hnot (hall target hmem)⟩

/-- Witness for C10 (amended) on the cycle-below-target catalog. -/
theorem claim_C10_amended_witness :
    "b" ∈ allDepNames cycBC ∧ ("a" ∉ allDepNames cycBC → "a" ∉ ["b", "c", "b"]) :=
  ⟨(claim_C10_amended cycBC "a" [] ["b", "c", "b"] (by rfl)).1 "b" (by decide),
   (claim_C10_amended cycBC "a" [] ["b", "c", "b"] (by rfl)).2⟩

/-! ### Claim C1 -/

/-- Counterexample to C1's general clause: in the catalog `a → b → c → b`
(a dependency cycle below the target) the resolved list is `[b, c, b]`, in
which the duplicate requirement `b` appears twice, not once. -/
theorem claim_C1_counterexample :
    resolve_dependencies cycBC "a" [] = .ok ["b", "c", "b"] ∧
    (["b", "c", "b"].count "b" = 2) :=
  ⟨by rfl, by decide⟩

theorem diamond_eval (a b c d : String) (pa pb pc pd : Package) (installed : Ledger)
    (hab : a ≠ b) (hac : a ≠ c) (had : a ≠ d) (hbc : b ≠ c) (hbd : b ≠ d) (hcd : c ≠ d)
    (hpa : pa.dependencies = [b, c]) (hpb : pb.dependencies = [d])
    (hpc : pc.dependencies = [d]) (hpd : pd.dependencies = [])
    (hib : containsA installed b = false) (hic : containsA installed c = false)
    (hid : containsA installed d = false) (f : Nat) :
    resolveRec [(a, pa), (b, pb), (c, pc), (d, pd)] installed (f + 1 + 1 + 1 + 1) a
      ⟨[], []⟩ = .ok ⟨[d, b, c], [c, d, b, a]⟩ := by
  simp [resolveRec_succ, depsFold, lookupA, memB, hab, hac, had, hbc, hbd, hcd,
    Ne.symm hab, Ne.symm hac, Ne.symm had, Ne.symm hbc, Ne.symm hbd, Ne.symm hcd,
    hpa, hpb, hpc, hpd, hib, hic, hid]

/-- C1 (amended): for every diamond dependency graph — target `a` depending on
`b` and `c`, both depending on `d`, with `b`, `c`, `d` not installed and the
four names distinct — the resolved list is exactly `[d, b, c]`: the shared
requirement `d` appears once, at its position of first discovery, before both
`b` and `c`. (The general duplicates-appear-once clause is false on dependency
cycles, see the counterexample, so it is restricted to acyclic sharing.) -/
theorem claim_C1_amended_diamond (a b c d : String) (pa pb pc pd : Package)
    (installed : Ledger)
    (hab : a ≠ b) (hac : a ≠ c) (had : a ≠ d) (hbc : b ≠ c) (hbd : b ≠ d) (hcd : c ≠ d)
    (hpa : pa.dependencies = [b, c]) (hpb : pb.dependencies = [d])
    (hpc : pc.dependencies = [d]) (hpd : pd.dependencies = [])
    (hib : containsA installed b = false) (hic : containsA installed c = false)
    (hid : containsA installed d = false) :
    resolve_dependencies [(a, pa), (b, pb), (c, pc), (d, pd)] a installed =
      .ok [d, b, c] := by
  unfold resolve_dependencies
  rw [show List.length [(a, pa), (b, pb), (c, pc), (d, pd)] + 1 = 1 + 1 + 1 + 1 + 1 from rfl]
  rw [diamond_eval a b c d pa pb pc pd installed hab hac had hbc hbd hcd
    hpa hpb hpc hpd hib hic hid 1]
  rfl

/-- Witness for C1 (amended) on the concrete diamond catalog. -/
theorem claim_C1_amended_diamond_witness :
    resolve_dependencies diamondRepo "a" [] = .ok ["d", "b", "c"] :=
  claim_C1_amended_diamond "a" "b" "c" "d" (pkgOf ["b", "c"]) (pkgOf ["d"])
    (pkgOf ["d"]) (pkgOf []) [] (by decide) (by decide) (by decide) (by decide)
    (by decide) (by decide) rfl rfl rfl rfl rfl rfl rfl

end Pie

namespace Pie

/-! ### Claim C2 -/

/-- C2: whenever the fetched artifact bytes hash to a value different from the
declared sha256, `install_single_package` aborts with a checksum error having
changed nothing but the fetch trace: no path is unpacked into the install root
and the in-memory ledger gains or changes no entry. -/
theorem claim_C2_checksum_mismatch_aborts (e : Env) (repo : Repo) (name : String)
    (s : MState) (p : Package) (art : Architecture)
    (hp : lookupA repo name = some p)
    (hsup : memB supportedArchs e.arch = true)
    (hart : lookupA p.architectures e.arch = some art)
    (hmm : e.hashHex (e.fetchBytes art.url) ≠ art.sha256) :
    install_single_package e repo name s =
      (some (.checksumMismatch name), { s with fetched := s.fetched ++ [art.url] }) := by
  simp [install_single_package, hp, get_arch, hsup, hart, hmm]

/-- An environment whose hash collaborator never matches the fixture sha256. -/
def envBadHash : Env :=
  { arch := "arm64-v8a", apiLevel := 30, fetchBytes := fun _ => [1],
    hashHex := fun _ => "00", unpack := fun _ => ["usr/bin/curl"] }

/-- The artifact of the spec's `curl` example. -/
def artCurl : Architecture :=
  { url := "cu", sha256 := "aa", size := 100, uncompressed_size := 300,
    contents := ["usr/bin/curl"] }

/-- The package of the spec's `curl` example. -/
def pkgCurl : Package :=
  { version := "8.1", min_api := none, dependencies := [], conflicts := [],
    architectures := [("arm64-v8a", artCurl)] }

/-- The single-package catalog of the spec's `curl` example. -/
def repoCurl : Repo := [("curl", pkgCurl)]

/-- Witness for C2: concrete mismatching hash aborts with untouched
filesystem and ledger. -/
theorem claim_C2_checksum_mismatch_aborts_witness :
    install_single_package envBadHash repoCurl "curl" ⟨[], [], []⟩ =
      (some (.checksumMismatch "curl"), ⟨[], [], ["cu"]⟩) :=
  claim_C2_checksum_mismatch_aborts envBadHash repoCurl "curl" ⟨[], [], []⟩ pkgCurl
    artCurl (by rfl) (by rfl) (by rfl) (by decide)

/-! ### Claim C6 -/

/-- C6: installing a target whose exact name is a catalog key and already a
ledger key is a no-op success: result `none` and a completely unchanged
transaction state — same in-memory/durable ledger, no artifact fetch, no
durable write, stdin untouched. -/
theorem claim_C6_already_installed_noop (e : Env) (repo : Repo) (name : String)
    (no_confirm : Bool) (st : TxSt)
    (hrepo : (lookupA repo name).isSome = true)
    (hinst : containsA st.durable name = true) :
    install_package e repo name no_confirm st = (none, st) := by
  obtain ⟨p, hp⟩ := Option.isSome_iff_exists.mp hrepo
  simp [install_package, installResolved, hrepo, hp, hinst]

/-- The durable state of the `curl` example with `curl` already installed. -/
def stCurl : TxSt :=
  { stdin := [], fs := ["usr/bin/curl"],
    durable := [("curl", ⟨"curl", "8.1", ["usr/bin/curl"]⟩)],
    fetched := [], saves := [] }

/-- Witness for C6 at the concrete `curl` state. -/
theorem claim_C6_already_installed_noop_witness :
    install_package envBadHash repoCurl "curl" false stCurl = (none, stCurl) :=
  claim_C6_already_installed_noop envBadHash repoCurl "curl" false stCurl
    (by rfl) (by rfl)

/-! ### Claim C8 -/

/-- A package whose `min_api` is a whitespace-only string. -/
def pkgWs : Package :=
  { version := "1", min_api := some " ", dependencies := [], conflicts := [],
    architectures := [] }

/-- Counterexample to C8: `min_api = " "` is neither absent, nor the empty
string, nor parses as an integer, yet the compatibility check succeeds
(the code trims before the emptiness test), contradicting the claimed
`exactly when` characterisation. -/
theorem claim_C8_counterexample :
    check_api_compatibility 21 pkgWs = none ∧
    pkgWs.min_api ≠ none ∧ pkgWs.min_api ≠ some "" ∧ parseU32 " " = none :=
  ⟨by rfl, by decide, by decide, by rfl⟩

/-- C8 (amended): the check succeeds exactly when `min_api` is absent, trims
to the empty string (so empty or whitespace-only), or parses as a `u32` not
exceeding the device level; a non-blank `min_api` that does not parse fails
with the format error, and one that parses above the device level fails with
the incompatibility error. -/
theorem claim_C8_amended (dev : Nat) (p : Package) :
    (check_api_compatibility dev p = none ↔
      (p.min_api = none ∨ ∃ s, p.min_api = some s ∧
        (strTrim s = "" ∨ ∃ m, parseU32 s = some m ∧ m ≤ dev))) ∧
    (∀ s, p.min_api = some s → strTrim s ≠ "" → parseU32 s = none →
      check_api_compatibility dev p = some (.invalidMinApi s)) ∧
    (∀ s m, p.min_api = some s → strTrim s ≠ "" → parseU32 s = some m → dev < m →
      check_api_compatibility dev p = some (.incompatibleApi m dev)) := by
  cases hm : p.min_api with
  | none => simp [check_api_compatibility, hm]
  | some s =>
    by_cases ht : strTrim s = ""
    · simp only [check_api_compatibility, hm, if_pos ht]
      refine ⟨by simp [ht], ?_, ?_⟩
      · intro s1 hs1 hns1 _
        injection hs1 with h
        exact absurd (h ▸ ht) hns1
      · intro s1 m hs1 hns1 _ _
        injection hs1 with h
        exact absurd (h ▸ ht) hns1
    · cases hp : parseU32 s with
      | none =>
        simp only [check_api_compatibility, hm, if_neg ht, hp]
        refine ⟨?_, ?_, ?_⟩
        · simp [ht, hp]
        · intro s1 hs1 _ _
          injection hs1 with h
          subst h
          rfl
        · intro s1 m hs1 _ hpm _
          injection hs1 with h
          rw [← h, hp] at hpm
          exact Option.noConfusion hpm
      | some m =>
        by_cases hd : dev < m
        · simp only [check_api_compatibility, hm, if_neg ht, hp, if_pos hd]
          refine ⟨?_, ?_, ?_⟩
          · refine iff_of_false (by simp) ?_
            rintro (h | ⟨s1, hs1, h | ⟨m1, hm1, hle⟩⟩)
            · exact Option.noConfusion h
            · injection hs1 with h2
              exact ht (by rw [h2]; exact h)
            · injection hs1 with h2
              rw [← h2, hp] at hm1
              injection hm1 with h3
              omega
          · intro s1 hs1 _ hpm
            injection hs1 with h2
            rw [← h2, hp] at hpm
            exact Option.noConfusion hpm
          · intro s1 m1 hs1 _ hpm _
            injection hs1 with h2
            rw [← h2, hp] at hpm
            injection hpm with h3
            rw [h3]
        · simp only [check_api_compatibility, hm, if_neg ht, hp, if_neg hd]
          refine ⟨?_, ?_, ?_⟩
          · refine iff_of_true trivial ?_
            exact Or.inr ⟨s, rfl, Or.inr ⟨m, hp, by omega⟩⟩
          · intro s1 hs1 _ hpm
            injection hs1 with h2
            rw [← h2, hp] at hpm
            exact Option.noConfusion hpm
          · intro s1 m1 hs1 _ hpm hlt
            injection hs1 with h2
            rw [← h2, hp] at hpm
            injection hpm with h3
            omega

/-- Witness for C8 (amended), matching the spec example: `min_api = "24"` on a
device at level 21 fails with the incompatibility error. -/
theorem claim_C8_amended_witness :
    check_api_compatibility 21
        { version := "1", min_api := some "24", dependencies := [], conflicts := [],
          architectures := [] } =
      some (.incompatibleApi 24 21) :=
  (claim_C8_amended 21 _).2.2 "24" 24 (by rfl) (by decide) (by rfl) (by decide)

end Pie

namespace Pie

/-! ### Claim C9 -/

/-- Split a character list at `/` separators (spec-side helper). -/
def splitSlash : List Char → List (List Char)
  | [] => [[]]
  | c :: rest =>
    let r := splitSlash rest
    if c = '/' then [] :: r
    else
      match r with
      | [] => [[c]]
      | seg :: more => (c :: seg) :: more

/-- Modelled from the spec: the final path segment of a content path. -/
def lastSegment (c : String) : String :=
  ⟨(splitSlash c.data).getLastD []⟩

/-- Modelled from the spec: the query equals a content path verbatim, or
equals its final path segment, or equals the final segment sitting under a
`bin/` path component. -/
def specContentMatch (q c : String) : Bool :=
  (c == q) || (q == lastSegment c) ||
    (match (splitSlash c.data).reverse with
     | last :: prev :: _ => ((⟨prev⟩ : String) == "bin") && (q == (⟨last⟩ : String))
     | _ => false)

/-- Spec-side package match for one architecture. -/
def specPackageMatch (arch q : String) (p : Package) : Bool :=
  match lookupA p.architectures arch with
  | some art => art.contents.any (fun c => specContentMatch q c)
  | none => false

/-- The code-side package match used by `find_package_by_content`. -/
def packageProvides (e : Env) (q : String) (p : Package) : Bool :=
  match get_arch e with
  | none => false
  | some arch =>
    match lookupA p.architectures arch with
    | some art => art.contents.any (fun c => contentMatches q c)
    | none => false

/-- A package owning the single content path `a/b/c`. -/
def pkgSlash : Package :=
  { version := "1", min_api := none, dependencies := [], conflicts := [],
    architectures := [("arm64-v8a",
      { url := "u", sha256 := "s", size := 0, uncompressed_size := 0,
        contents := ["a/b/c"] })] }

/-- One-package catalog owning `a/b/c`. -/
def repoSlash : Repo := [("p1", pkgSlash)]

/-- Counterexample to C9: for the slash-containing query `b/c` the locator
reports `p1` (because `a/b/c` ends with `/b/c`), although the query equals
neither the path verbatim, nor its final path segment `c`, nor a final
segment under a `bin/` component — so the claimed `if and only if` fails. -/
theorem claim_C9_counterexample :
    find_package_by_content envBadHash repoSlash "b/c" = some "p1" ∧
    specPackageMatch "arm64-v8a" "b/c" pkgSlash = false :=
  ⟨by rfl, by rfl⟩

theorem firstMatch_cons_fail {e : Env} {q n m : String} {p0 : Package} {rest : Repo}
    (hfail : packageProvides e q p0 = false) :
    (∃ pre p post, ((m, p0) :: rest : Repo) = pre ++ (n, p) :: post ∧
        packageProvides e q p = true ∧ ∀ pr ∈ pre, packageProvides e q pr.2 = false) ↔
    (∃ pre p post, (rest : Repo) = pre ++ (n, p) :: post ∧
        packageProvides e q p = true ∧ ∀ pr ∈ pre, packageProvides e q pr.2 = false) := by
  constructor
  · rintro ⟨pre, p, post, heq, hp, hpre⟩
    cases pre with
    | nil =>
      rw [List.nil_append] at heq
      injection heq with h1 h2
      have hpp : p0 = p := congrArg Prod.snd h1
      rw [hpp, hp] at hfail
      exact Bool.noConfusion hfail
    | cons pr pre2 =>
      rw [List.cons_append] at heq
      injection heq with h1 h2
      exact ⟨pre2, p, post, h2, hp, fun x hx =>
        hpre x (h1 ▸ List.mem_cons_of_mem _ hx)⟩
  · rintro ⟨pre, p, post, heq, hp, hpre⟩
    refine ⟨(m, p0) :: pre, p, post, ?_, hp, ?_⟩
    · rw [List.cons_append, heq]
    · intro pr hpr
      rcases List.mem_cons.mp hpr with h | h
      · rw [h]
        exact hfail
      · exact hpre pr h

theorem firstMatch_cons_hit {e : Env} {q n m : String} {p0 : Package} {rest : Repo}
    (hhit : packageProvides e q p0 = true) :
    (∃ pre p post, ((m, p0) :: rest : Repo) = pre ++ (n, p) :: post ∧
        packageProvides e q p = true ∧ ∀ pr ∈ pre, packageProvides e q pr.2 = false) ↔
    n = m := by
  constructor
  · rintro ⟨pre, p, post, heq, hp, hpre⟩
    cases pre with
    | nil =>
      rw [List.nil_append] at heq
      injection heq with h1 h2
      exact (congrArg Prod.fst h1).symm
    | cons pr pre2 =>
      rw [List.cons_append] at heq
      injection heq with h1 h2
      have hf : packageProvides e q p0 = false := by
        have := hpre pr (List.mem_cons_self _ _)
        rw [← h1] at this
        exact this
      rw [hhit] at hf
      exact Bool.noConfusion hf
  · intro h
    subst h
    exact ⟨[], p0, rest, rfl, hhit, by simp⟩

/-- C9 (amended): the locator returns `some n` exactly when the catalog splits
as `pre ++ (n, p) :: post` with `p` the first package (in iteration order)
owning, for the device architecture, a content path that equals the query
verbatim or ends with `/` + query or with `bin/` + query — the spec's
final-segment reading is accurate only for slash-free queries. At most one
name is returned by construction. -/
theorem claim_C9_amended (e : Env) (repo : Repo) (q n : String) :
    find_package_by_content e repo q = some n ↔
      ∃ pre p post, repo = pre ++ (n, p) :: post ∧
        packageProvides e q p = true ∧
        ∀ pr ∈ pre, packageProvides e q pr.2 = false := by
  induction repo with
  | nil =>
    constructor
    · intro h
      exact Option.noConfusion h
    · rintro ⟨pre, p, post, heq, -, -⟩
      exact absurd heq.symm (by simp)
  | cons hd rest ih =>
    obtain ⟨m, p0⟩ := hd
    show findByContentGo e q ((m, p0) :: rest) = some n ↔ _
    rw [findByContentGo]
    cases ha : get_arch e with
    | none =>
      simp only [ha]
      constructor
      · intro h
        exact Option.noConfusion h
      · rintro ⟨pre, p, post, heq, hp, -⟩
        unfold packageProvides at hp
        rw [ha] at hp
        exact Bool.noConfusion hp
    | some arch =>
      cases hl : lookupA p0.architectures arch with
      | none =>
        have hfail : packageProvides e q p0 = false := by
          simp [packageProvides, ha, hl]
        simp only [ha, hl]
        rw [firstMatch_cons_fail hfail]
        exact ih
      | some art =>
        cases hmatch : art.contents.any (fun c => contentMatches q c) with
        | true =>
          have hhit : packageProvides e q p0 = true := by
            simp [packageProvides, ha, hl, hmatch]
          simp only [ha, hl, hmatch, if_true]
          rw [firstMatch_cons_hit hhit]
          constructor
          · intro h
            injection h with h
            exact h.symm
          · intro h
            rw [h]
        | false =>
          have hfail : packageProvides e q p0 = false := by
            simp [packageProvides, ha, hl, hmatch]
          simp only [ha, hl, hmatch, if_false]
          rw [firstMatch_cons_fail hfail]
          exact ih

end Pie

namespace Pie

/-! ### Claim C5 -/

/-- The transaction state after the first `curl` uninstall: empty ledger and
filesystem, one durable write of the empty ledger. -/
def stAfterUninstall : TxSt :=
  { stdin := [], fs := [], durable := [], fetched := [], saves := [[]] }

/-- Counterexample to C5: uninstalling `curl` twice from the example state —
the first call removes files, ledger entry and persists; the second call
resolves `curl` through the content locator, finds it not installed, and
returns an error (hence a non-zero process exit), contradicting the claim
that the second uninstall reports not-installed without being an error. -/
theorem claim_C5_counterexample :
    uninstall_package envBadHash repoCurl "curl" stCurl = (none, stAfterUninstall) ∧
    uninstall_package envBadHash repoCurl "curl" stAfterUninstall =
      (some (.contentNotInstalled "curl"), stAfterUninstall) :=
  ⟨by rfl, by rfl⟩

/-- C5 (amended): uninstalling a package that is not in the ledger — when no
other installed package provides content matching the name — fails with a
not-installed/not-found error (non-zero process exit) and performs no state
change at all: no file is removed and no durable write happens. It is
idempotent only in its effects, not in its exit status. -/
theorem claim_C5_amended (e : Env) (repo : Repo) (name : String) (st : TxSt)
    (hni : containsA st.durable name = false)
    (hcontent : ∀ pkg, find_package_by_content e repo name = some pkg →
      containsA st.durable pkg = false) :
    (uninstall_package e repo name st).1.isSome = true ∧
    (uninstall_package e repo name st).2 = st := by
  cases hf : find_package_by_content e repo name with
  | none => simp [uninstall_package, hni, hf]
  | some pkg => simp [uninstall_package, hni, hf, hcontent pkg hf]

/-- Witness for C5 (amended) at the concrete post-uninstall state. -/
theorem claim_C5_amended_witness :
    (uninstall_package envBadHash repoCurl "curl" stAfterUninstall).1.isSome = true ∧
    (uninstall_package envBadHash repoCurl "curl" stAfterUninstall).2 = stAfterUninstall :=
  claim_C5_amended envBadHash repoCurl "curl" stAfterUninstall (by rfl)
    (fun _ _ => by rfl)

/-! ### Claim C4 -/

/-- An environment whose hash collaborator matches the conflict fixtures. -/
def envOk : Env :=
  { arch := "arm64-v8a", apiLevel := 30, fetchBytes := fun _ => [1],
    hashHex := fun _ => "aa", unpack := fun _ => ["usr/bin/new"] }

/-- Artifact of the conflicting-install fixture. -/
def artNew : Architecture :=
  { url := "u", sha256 := "aa", size := 10, uncompressed_size := 20,
    contents := ["usr/bin/new"] }

/-- A target package declaring a conflict with `oldpkg`. -/
def pkgNew : Package :=
  { version := "2", min_api := none, dependencies := [], conflicts := ["oldpkg"],
    architectures := [("arm64-v8a", artNew)] }

/-- Catalog containing only the conflicting target. -/
def repoConf : Repo := [("newpkg", pkgNew)]

/-- Durable ledger with the conflicting `oldpkg` installed. -/
def ledgerOld : Ledger := [("oldpkg", ⟨"oldpkg", "1", ["usr/bin/old"]⟩)]

/-- Start state: `oldpkg` installed and its file on disk; the user will
confirm conflict removal, then decline the main prompt. -/
def stConf : TxSt :=
  { stdin := ["", "n"], fs := ["usr/bin/old"], durable := ledgerOld,
    fetched := [], saves := [] }

/-- Counterexample to C4: the user confirms conflict removal and then cancels
at the main installation prompt. The command terminates successfully with the
conflict's files deleted from the filesystem, yet no durable ledger write ever
happens (`saves = []`) and the persisted ledger still contains `oldpkg` — so
the staged conflict's entry is not removed from the persisted ledger document
once the command terminates. -/
theorem claim_C4_counterexample :
    install_package envOk repoConf "newpkg" false stConf =
      (none, { stdin := [], fs := [], durable := ledgerOld, fetched := [],
               saves := [] }) ∧
    containsA ledgerOld "oldpkg" = true :=
  ⟨by rfl, by rfl⟩

/-- C4 (amended): for every install that reaches a successfully handled
conflict stage (each staged conflict confirmed, its owned files deleted and
its entry dropped from the in-memory snapshot), resolves its dependencies,
passes the accounting architecture query, and is then cancelled by the user
at the main confirmation prompt: the command terminates successfully with the
post-conflict-removal filesystem, but the durable ledger document is neither
rewritten nor purged — the removed conflicts' entries are still present in
the persisted ledger and the write trace is unchanged. -/
theorem claim_C4_amended (e : Env) (repo : Repo) (name : String) (pkg : Package)
    (st : TxSt) (mem2 : Ledger) (fs2 stdin2 : List String) (deps : List String)
    (l2 : String) (restIn : List String)
    (hlk : lookupA repo name = some pkg)
    (hni : containsA st.durable name = false)
    (hapi : check_api_compatibility e.apiLevel pkg = none)
    (hconfl : handle_conflicts pkg st.durable st.fs st.stdin false =
      (none, mem2, fs2, stdin2))
    (hres : resolve_dependencies repo name mem2 = .ok deps)
    (harch : memB supportedArchs e.arch = true)
    (hrl : readLine stdin2 = (l2, restIn))
    (hno : isNoAnswer l2 = true) :
    install_package e repo name false st =
      (none, { st with stdin := restIn, fs := fs2 }) := by
  simp [install_package, installResolved, hlk, hni, hapi, hconfl, hres, get_arch,
    harch, hrl, hno]

/-- Witness for C4 (amended): a concrete confirm-then-cancel run keeps the
durable ledger untouched while the conflict's file is gone. -/
theorem claim_C4_amended_witness :
    install_package envOk repoConf "newpkg" false
        { stdin := ["ok", "NO"], fs := ["usr/bin/old", "keep.txt"],
          durable := ledgerOld, fetched := [], saves := [] } =
      (none, { stdin := [], fs := ["keep.txt"], durable := ledgerOld,
               fetched := [], saves := [] }) :=
  claim_C4_amended envOk repoConf "newpkg" pkgNew _ [] ["keep.txt"] ["NO"] [] "NO" []
    (by rfl) (by rfl) (by rfl) (by rfl) (by rfl) (by rfl) (by rfl) (by rfl)

end Pie

namespace Pie

/-! ### Claim C3 -/

theorem installRun_saves (e : Env) (repo : Repo) (target : String) (deps : List String)
    (mem2 : Ledger) (fs2 : List String) (stdin3 : List String) (st : TxSt) :
    ((installRun e repo target deps mem2 fs2 stdin3 st).1.isSome = true →
      (installRun e repo target deps mem2 fs2 stdin3 st).2.saves = st.saves) ∧
    ((installRun e repo target deps mem2 fs2 stdin3 st).1 = none →
      (installRun e repo target deps mem2 fs2 stdin3 st).2.saves =
        st.saves ++ [(installRun e repo target deps mem2 fs2 stdin3 st).2.durable]) := by
  cases h : installBatch e repo (deps ++ [target]) ⟨mem2, fs2, st.fetched⟩ with
  | mk err ms =>
    cases err with
    | none => simp [installRun, h]
    | some e2 => simp [installRun, h]

theorem installRun_saves_tri (e : Env) (repo : Repo) (target : String)
    (deps : List String) (mem2 : Ledger) (fs2 : List String) (stdin3 : List String)
    (st : TxSt) :
    ((installRun e repo target deps mem2 fs2 stdin3 st).1.isSome = true →
      (installRun e repo target deps mem2 fs2 stdin3 st).2.saves = st.saves) ∧
    ((installRun e repo target deps mem2 fs2 stdin3 st).2.saves = st.saves ∨
      (installRun e repo target deps mem2 fs2 stdin3 st).2.saves =
        st.saves ++ [(installRun e repo target deps mem2 fs2 stdin3 st).2.durable]) ∧
    ((installRun e repo target deps mem2 fs2 stdin3 st).1 = none →
      (installRun e repo target deps mem2 fs2 stdin3 st).2.fetched ≠ st.fetched →
      (installRun e repo target deps mem2 fs2 stdin3 st).2.saves =
        st.saves ++ [(installRun e repo target deps mem2 fs2 stdin3 st).2.durable]) := by
  rcases installRun_saves e repo target deps mem2 fs2 stdin3 st with ⟨h1, h2⟩
  refine ⟨h1, ?_, fun h _ => h2 h⟩
  cases hr : (installRun e repo target deps mem2 fs2 stdin3 st).1 with
  | none => exact Or.inr (h2 hr)
  | some err => exact Or.inl (h1 (by rw [hr]; rfl))

theorem installResolved_saves (e : Env) (repo : Repo) (target : String) (nc : Bool)
    (st : TxSt) :
    ((installResolved e repo target nc st).1.isSome = true →
      (installResolved e repo target nc st).2.saves = st.saves) ∧
    ((installResolved e repo target nc st).2.saves = st.saves ∨
      (installResolved e repo target nc st).2.saves =
        st.saves ++ [(installResolved e repo target nc st).2.durable]) ∧
    ((installResolved e repo target nc st).1 = none →
      (installResolved e repo target nc st).2.fetched ≠ st.fetched →
      (installResolved e repo target nc st).2.saves =
        st.saves ++ [(installResolved e repo target nc st).2.durable]) := by
  unfold installResolved
  split
  · simp
  · split
    · simp
    · split
      · simp
      · split
        · simp
        · split
          · simp
          · split
            · simp
            · split
              · exact installRun_saves_tri e repo target _ _ _ _ st
              · split
                · split
                  · simp
                  · exact installRun_saves_tri e repo target _ _ _ _ st

/-- C3: during one install transaction the durable ledger is written at most
once; any error (a per-package failure included) means it is not written at
all; when it is written, what is written is the final in-memory ledger; and a
successful transaction that fetched at least one artifact (i.e. reached the
install phase) writes it exactly once. -/
theorem claim_C3_single_durable_write (e : Env) (repo : Repo) (name : String)
    (nc : Bool) (st : TxSt) :
    ((install_package e repo name nc st).1.isSome = true →
      (install_package e repo name nc st).2.saves = st.saves) ∧
    ((install_package e repo name nc st).2.saves = st.saves ∨
      (install_package e repo name nc st).2.saves =
        st.saves ++ [(install_package e repo name nc st).2.durable]) ∧
    ((install_package e repo name nc st).1 = none →
      (install_package e repo name nc st).2.fetched ≠ st.fetched →
      (install_package e repo name nc st).2.saves =
        st.saves ++ [(install_package e repo name nc st).2.durable]) := by
  unfold install_package
  split
  · exact installResolved_saves e repo name nc st
  · split
    · split
      · exact installResolved_saves e repo _ nc st
      · split
        · split
          · simp
          · exact installResolved_saves e repo _ nc _
    · simp

/-- Start state with nothing installed and empty traces. -/
def stEmpty : TxSt :=
  { stdin := [], fs := [], durable := [], fetched := [], saves := [] }

/-- Witness for C3: a per-package checksum failure (hash collaborator returns
`00`, declared sha256 is `aa`) aborts the transaction with no durable write. -/
theorem claim_C3_single_durable_write_witness :
    (install_package envBadHash repoCurl "curl" true stEmpty).2.saves = [] :=
  (claim_C3_single_durable_write envBadHash repoCurl "curl" true stEmpty).1 (by rfl)

end Pie
